import Mathlib

set_option linter.unusedSectionVars false

/-!
# Secret Santa exchange backend — verification development

A shallow embedding of the exchange backend (`backend/routes/exchanges.js`
together with the persistence layer `backend/database-json.js`) and proofs
about the participant-admission workflow and the one-shot assignment
generation algorithm.

Conventions of the embedding:
* JS arrays become `List`; `push` appends at the tail, `splice` of the first
  matching index becomes `List.eraseP`, `find` becomes `List.find?`,
  `filter` becomes `List.filter`.
* Exchange ids and user ids are opaque tokens compared only for equality;
  they are embedded as `ℕ`.  The JS falsy check `!x` on a required field is
  embedded as `= 0` for ids, `= ""` for names and `= 0` for the numeric
  budget (the values that play `undefined`/empty in the routes).
* `Math.floor(Math.random() * i)` is an oracle: generation is parametrised
  by a choice function `jf : ℕ → ℕ`, with the validity fact
  `1 ≤ i → jf i < i` that the source guarantees (`Math.random () < 1`).
* `generateId` is an oracle as well: `createExchange` takes the fresh id as
  a parameter, and reachability of states assumes the generated exchange id
  is fresh.
-/

namespace SecretSanta

variable {α : Type*} [DecidableEq α]

/-! ## Array swap, Sattolo shuffle and the fixed-point repair pass

`[recipients[i], recipients[j]] = [recipients[j], recipients[i]]` is the
simultaneous swap of two positions of a JS array. -/

/-- Swap the entries at positions `i` and `j`; out-of-range indices leave
the list unchanged (in the source both indices are always in range). -/
def listSwap (l : List α) (i j : ℕ) : List α :=
  match l.get? i, l.get? j with
  | some a, some b => (l.set i b).set j a
  | _, _ => l

/-- The Sattolo loop `for (let i = recipients.length - 1; i > 0; i--)`:
`sattoloAux jf m l` runs the loop body for `i = m, m-1, …, 1`. -/
def sattoloAux (jf : ℕ → ℕ) : ℕ → List α → List α
  | 0, l => l
  | m + 1, l => sattoloAux jf m (listSwap l (m + 1) (jf (m + 1)))

/-- The full shuffle of `recipients = [...userIds]`. -/
def sattolo (jf : ℕ → ℕ) (l : List α) : List α :=
  sattoloAux jf (l.length - 1) l

/-- One iteration `i` of the repair pass:
`if (userIds[i] === recipients[i]) swap recipients[i], recipients[(i+1) % n]`,
then continue with `i + 1`; `fuel` counts the remaining iterations. -/
def fixAux (orig : List α) : ℕ → ℕ → List α → List α
  | 0, _, r => r
  | fuel + 1, i, r =>
    fixAux orig fuel (i + 1)
      (if orig.get? i = r.get? i then listSwap r i ((i + 1) % orig.length) else r)

/-- The whole repair pass `for (let i = 0; i < userIds.length; i++)`. -/
def fixPass (orig r : List α) : List α :=
  fixAux orig orig.length 0 r

/-! Basic facts about `listSwap`. -/

theorem listSwap_length (l : List α) (i j : ℕ) :
    (listSwap l i j).length = l.length := by
  unfold listSwap
  cases hi : l.get? i <;> cases hj : l.get? j <;> simp

theorem listSwap_get? (l : List α) {i j : ℕ} (hi : i < l.length)
    (hj : j < l.length) (k : ℕ) :
    (listSwap l i j).get? k = l.get? (Equiv.swap i j k) := by
  obtain ⟨a, ha⟩ : ∃ a, l.get? i = some a := by
    rw [List.get?_eq_get hi]; exact ⟨_, rfl⟩
  obtain ⟨b, hb⟩ : ∃ b, l.get? j = some b := by
    rw [List.get?_eq_get hj]; exact ⟨_, rfl⟩
  unfold listSwap
  rw [ha, hb]
  by_cases hkj : k = j
  · subst hkj
    rw [Equiv.swap_apply_right,
      List.get?_set_eq_of_lt a (by simpa using hj), ha]
  · by_cases hki : k = i
    · subst hki
      rw [Equiv.swap_apply_left,
        List.get?_set_ne a _ (fun h => hkj h.symm),
        List.get?_set_eq_of_lt b hi, hb]
    · rw [Equiv.swap_apply_of_ne_of_ne hki hkj,
        List.get?_set_ne a _ (fun h => hkj h.symm),
        List.get?_set_ne b _ (fun h => hki h.symm)]

theorem listSwap_comm (l : List α) (i j : ℕ) : listSwap l i j = listSwap l j i := by
  unfold listSwap
  cases ha : l.get? i <;> cases hb : l.get? j <;> try rfl
  rename_i a b
  by_cases hij : i = j
  · subst hij
    rw [ha] at hb
    cases hb
    rfl
  · exact List.set_comm _ _ l hij

theorem listSwap_self (l : List α) (i : ℕ) : listSwap l i i = l := by
  unfold listSwap
  cases ha : l.get? i with
  | none => rfl
  | some a =>
    obtain ⟨hi, hget⟩ := List.get?_eq_some.mp ha
    dsimp only
    rw [List.set_set, List.set_eq_take_cons_drop a hi]
    conv_rhs => rw [← List.take_append_drop i l, List.drop_eq_getElem_cons hi]
    rw [List.get_eq_getElem] at hget
    rw [hget]

theorem listSwap_cons_succ (x : α) (t : List α) (i j : ℕ) :
    listSwap (x :: t) (i + 1) (j + 1) = x :: listSwap t i j := by
  unfold listSwap
  simp only [List.get?_cons_succ]
  cases t.get? i <;> cases t.get? j <;> simp

theorem listSwap_zero_succ_perm (x : α) (t : List α) (j : ℕ) :
    List.Perm (listSwap (x :: t) 0 (j + 1)) (x :: t) := by
  unfold listSwap
  simp only [List.get?_cons_succ, List.get?_cons_zero]
  cases hb : t.get? j with
  | none => exact List.Perm.refl _
  | some b =>
    obtain ⟨hj, hget⟩ := List.get?_eq_some.mp hb
    rw [List.get_eq_getElem] at hget
    dsimp only
    have hset0 : (x :: t).set 0 b = b :: t := rfl
    have hsetj : (b :: t).set (j + 1) x = b :: t.set j x := rfl
    rw [hset0, hsetj, List.set_eq_take_cons_drop x hj]
    conv_rhs => rw [← List.take_append_drop j t, List.drop_eq_getElem_cons hj, hget]
    exact ((List.Perm.cons b List.perm_middle).trans
      (List.Perm.swap x b _)).trans (List.Perm.cons x List.perm_middle.symm)

theorem listSwap_perm (l : List α) (i j : ℕ) : List.Perm (listSwap l i j) l := by
  induction l generalizing i j with
  | nil => unfold listSwap; simp
  | cons x t ih =>
    match i, j with
    | 0, 0 => rw [listSwap_self]
    | 0, j + 1 => exact listSwap_zero_succ_perm x t j
    | i + 1, 0 => rw [listSwap_comm]; exact listSwap_zero_succ_perm x t i
    | i + 1, j + 1 => rw [listSwap_cons_succ]; exact (ih i j).cons x

theorem nodup_get?_ne (l : List α) (h : l.Nodup) {i j : ℕ} (hi : i < l.length)
    (hj : j < l.length) (hij : i ≠ j) : l.get? i ≠ l.get? j := by
  rw [List.get?_eq_get hi, List.get?_eq_get hj]
  simp only [Ne, Option.some_inj, List.get_eq_getElem]
  exact fun hEq => hij (h.getElem_inj_iff.mp hEq)

/-! ## The index permutation realised by the Sattolo loop

`satPerm jf m` is the permutation of positions that the swaps for
`i = m, m-1, …, 1` perform: position `k` of the output holds the input entry
at position `satPerm jf m k`. -/

/-- Index permutation of the Sattolo loop run for `i = m` down to `1`. -/
def satPerm (jf : ℕ → ℕ) : ℕ → Equiv.Perm ℕ
  | 0 => 1
  | m + 1 => Equiv.swap (m + 1) (jf (m + 1)) * satPerm jf m

theorem sattoloAux_length (jf : ℕ → ℕ) :
    ∀ (m : ℕ) (l : List α), (sattoloAux jf m l).length = l.length := by
  intro m
  induction m with
  | zero => intro l; rfl
  | succ m ih => intro l; rw [sattoloAux, ih, listSwap_length]

theorem sattoloAux_perm (jf : ℕ → ℕ) :
    ∀ (m : ℕ) (l : List α), List.Perm (sattoloAux jf m l) l := by
  intro m
  induction m with
  | zero => intro l; exact List.Perm.refl l
  | succ m ih =>
    intro l
    exact (ih _).trans (listSwap_perm l (m + 1) (jf (m + 1)))

theorem sattoloAux_get? (jf : ℕ → ℕ) (hjf : ∀ i, 1 ≤ i → jf i < i) :
    ∀ (m : ℕ) (l : List α), m < l.length →
      ∀ k, (sattoloAux jf m l).get? k = l.get? (satPerm jf m k) := by
  intro m
  induction m with
  | zero => intro l _ k; simp [sattoloAux, satPerm]
  | succ m ih =>
    intro l hm k
    have hj : jf (m + 1) < m + 1 := hjf (m + 1) (Nat.succ_le_succ (Nat.zero_le m))
    have hlen : (listSwap l (m + 1) (jf (m + 1))).length = l.length :=
      listSwap_length l _ _
    rw [sattoloAux, ih _ (by omega),
      listSwap_get? l hm (by omega)]
    rfl

theorem sattoloAux_congr {jf jf2 : ℕ → ℕ} :
    ∀ (m : ℕ) (l : List α), (∀ i, 1 ≤ i → i ≤ m → jf i = jf2 i) →
      sattoloAux jf m l = sattoloAux jf2 m l := by
  intro m
  induction m with
  | zero => intro l _; rfl
  | succ m ih =>
    intro l h
    rw [sattoloAux, sattoloAux, h (m + 1) (by omega) (by omega),
      ih _ (fun i h1 h2 => h i h1 (by omega))]

theorem satPerm_congr {jf jf2 : ℕ → ℕ} :
    ∀ m : ℕ, (∀ i, 1 ≤ i → i ≤ m → jf i = jf2 i) →
      satPerm jf m = satPerm jf2 m := by
  intro m
  induction m with
  | zero => intro _; rfl
  | succ m ih =>
    intro h
    show Equiv.swap (m + 1) (jf (m + 1)) * satPerm jf m = _
    rw [h (m + 1) (by omega) (by omega), ih (fun i h1 h2 => h i h1 (by omega))]
    rfl

/-- The permutation realised by the loop for `i = m … 1` with all choices
`jf i < i` is the cycle written down by an explicit duplicate-free list
holding exactly the positions `0 … m`. -/
theorem satPerm_exists_formPerm (jf : ℕ → ℕ) (hjf : ∀ i, 1 ≤ i → jf i < i) :
    ∀ m : ℕ, 1 ≤ m → ∃ L : List ℕ, L.Nodup ∧ (∀ z, z ∈ L ↔ z ≤ m) ∧
      satPerm jf m = L.formPerm := by
  intro m
  induction m with
  | zero => intro h; omega
  | succ m ih =>
    intro _
    rcases Nat.eq_zero_or_pos m with hm0 | hm1
    · subst hm0
      refine ⟨[1, 0], by decide, by intro z; simp; omega, ?_⟩
      have h1 : jf 1 = 0 := Nat.lt_one_iff.mp (hjf 1 le_rfl)
      show Equiv.swap 1 (jf 1) * satPerm jf 0 = _
      rw [h1, List.formPerm_pair]
      show Equiv.swap 1 0 * 1 = Equiv.swap 1 0
      rw [mul_one]
    · obtain ⟨L, hnd, hmem, hform⟩ := ih hm1
      have hjmem : jf (m + 1) ∈ L :=
        (hmem _).mpr (by have := hjf (m + 1) (by omega); omega)
      obtain ⟨s, t, hL⟩ := List.append_of_mem hjmem
      have hrot : List.IsRotated L (jf (m + 1) :: (t ++ s)) := by
        rw [hL, ← List.cons_append]
        exact List.isRotated_append
      have hnd2 : (jf (m + 1) :: (t ++ s)).Nodup := hrot.nodup_iff.mp hnd
      have hnotmem : (m + 1) ∉ jf (m + 1) :: (t ++ s) := by
        intro hc
        have : m + 1 ∈ L := hrot.mem_iff.mpr hc
        have := (hmem _).mp this
        omega
      refine ⟨(m + 1) :: jf (m + 1) :: (t ++ s), ?_, ?_, ?_⟩
      · exact List.nodup_cons.mpr ⟨hnotmem, hnd2⟩
      · intro z
        constructor
        · intro hz
          rcases List.mem_cons.mp hz with hz | hz
          · omega
          · have : z ∈ L := hrot.mem_iff.mpr hz
            have := (hmem _).mp this
            omega
        · intro hz
          rcases Nat.lt_or_ge z (m + 1) with hlt | hge
          · exact List.mem_cons.mpr (Or.inr (hrot.mem_iff.mp ((hmem _).mpr (by omega))))
          · have : z = m + 1 := by omega
            exact this ▸ List.mem_cons_self _ _
      · show Equiv.swap (m + 1) (jf (m + 1)) * satPerm jf m = _
        rw [hform, List.formPerm_eq_of_isRotated hnd hrot,
          List.formPerm_cons_cons]

theorem satPerm_isCycle_and_moved (jf : ℕ → ℕ) (hjf : ∀ i, 1 ≤ i → jf i < i)
    (m : ℕ) (hm : 1 ≤ m) :
    (satPerm jf m).IsCycle ∧ (∀ k, satPerm jf m k ≠ k ↔ k ≤ m) := by
  obtain ⟨L, hnd, hmem, hform⟩ := satPerm_exists_formPerm jf hjf m hm
  have htf : L.toFinset = Finset.range (m + 1) := by
    ext z
    simp only [List.mem_toFinset, Finset.mem_range, hmem z]
    omega
  have hlen : L.length = m + 1 := by
    have := List.toFinset_card_of_nodup hnd
    rw [htf, Finset.card_range] at this
    omega
  constructor
  · rw [hform]
    exact List.isCycle_formPerm hnd (by omega)
  · intro k
    rw [hform]
    constructor
    · intro h
      exact (hmem k).mp (List.mem_of_formPerm_ne_self L k h)
    · intro hk
      exact (List.formPerm_apply_mem_ne_self_iff L hnd k ((hmem k).mpr hk)).mpr
        (by omega)

theorem satPerm_apply_le (jf : ℕ → ℕ) (hjf : ∀ i, 1 ≤ i → jf i < i)
    (m : ℕ) (hm : 1 ≤ m) {k : ℕ} (hk : k ≤ m) : satPerm jf m k ≤ m := by
  obtain ⟨-, hmoved⟩ := satPerm_isCycle_and_moved jf hjf m hm
  by_contra hgt
  set y := satPerm jf m k with hy
  have hyfix : satPerm jf m y = y := by
    by_contra hne
    have := (hmoved y).mp hne
    omega
  have h1 : satPerm jf m y = satPerm jf m k := by rw [hyfix, hy]
  have hyk : y = k := (satPerm jf m).injective h1
  have hfix : satPerm jf m k = k := by rw [← hy, hyk]
  exact (hmoved k).mpr hk hfix

/-- Combined shape of the Sattolo shuffle output: a permutation of the input,
described positionwise by `satPerm`, with no position left in place. -/
theorem sattolo_props (l : List α) (hnd : l.Nodup) (h2 : 2 ≤ l.length)
    (jf : ℕ → ℕ) (hjf : ∀ i, 1 ≤ i → jf i < i) :
    List.Perm (sattolo jf l) l ∧
    (∀ k, (sattolo jf l).get? k = l.get? (satPerm jf (l.length - 1) k)) ∧
    (∀ k, k < l.length → (sattolo jf l).get? k ≠ l.get? k) := by
  have hm : l.length - 1 < l.length := by omega
  have hm1 : 1 ≤ l.length - 1 := by omega
  obtain ⟨-, hmoved⟩ := satPerm_isCycle_and_moved jf hjf (l.length - 1) hm1
  refine ⟨sattoloAux_perm jf _ l, sattoloAux_get? jf hjf _ l hm, ?_⟩
  intro k hk
  show (sattoloAux jf (l.length - 1) l).get? k ≠ l.get? k
  rw [sattoloAux_get? jf hjf _ l hm]
  have hkm : k ≤ l.length - 1 := by omega
  have hne : satPerm jf (l.length - 1) k ≠ k := (hmoved k).mpr hkm
  have hlt : satPerm jf (l.length - 1) k ≤ l.length - 1 :=
    satPerm_apply_le jf hjf _ hm1 hkm
  exact nodup_get?_ne l hnd (by omega) (by omega) hne

/-! Facts about the repair pass. -/

theorem fixAux_length (orig : List α) (fuel : ℕ) :
    ∀ (i : ℕ) (r : List α), (fixAux orig fuel i r).length = r.length := by
  induction fuel with
  | zero => intro i r; rfl
  | succ fuel ih =>
    intro i r
    rw [fixAux, ih]
    split
    · rw [listSwap_length]
    · rfl

theorem fixAux_perm (orig : List α) (fuel : ℕ) :
    ∀ (i : ℕ) (r : List α), List.Perm (fixAux orig fuel i r) r := by
  induction fuel with
  | zero => intro i r; exact List.Perm.refl r
  | succ fuel ih =>
    intro i r
    rw [fixAux]
    refine (ih _ _).trans ?_
    split
    · exact listSwap_perm r _ _
    · exact List.Perm.refl r

/-- One iteration of the repair pass keeps the invariant: the prefix handled
so far has no fixed point, and the working list stays a permutation. -/
theorem fixStep_invariant (P : List α) (hndP : P.Nodup) (h2 : 2 ≤ P.length)
    (R : List α) (hperm : List.Perm R P) (i : ℕ) (hi : i < P.length)
    (hinv : ∀ k, k < i → R.get? k ≠ P.get? k) :
    List.Perm
      (if P.get? i = R.get? i then listSwap R i ((i + 1) % P.length) else R) P ∧
    ∀ k, k < i + 1 →
      (if P.get? i = R.get? i then listSwap R i ((i + 1) % P.length)
        else R).get? k ≠ P.get? k := by
  have hRlen : R.length = P.length := hperm.length_eq
  have hndR : R.Nodup := hperm.nodup_iff.mpr hndP
  by_cases hc : P.get? i = R.get? i
  · rw [if_pos hc]
    have hp : (i + 1) % P.length < P.length := Nat.mod_lt _ (by omega)
    have hpi : (i + 1) % P.length ≠ i := by
      rcases Nat.lt_or_ge (i + 1) P.length with h | h
      · rw [Nat.mod_eq_of_lt h]; omega
      · have hin : i + 1 = P.length := by omega
        rw [hin, Nat.mod_self]; omega
    have hget : ∀ k, (listSwap R i ((i + 1) % P.length)).get? k =
        R.get? (Equiv.swap i ((i + 1) % P.length) k) :=
      listSwap_get? R (by omega) (by omega)
    refine ⟨(listSwap_perm R _ _).trans hperm, ?_⟩
    intro k hk
    rcases eq_or_ne i k with rfl | hik
    · rw [hget, Equiv.swap_apply_left]
      intro hcontra
      have hRR : R.get? ((i + 1) % P.length) = R.get? i := hcontra.trans hc
      exact nodup_get?_ne R hndR (by omega) (by omega) hpi hRR
    · have hklt : k < i := by omega
      rcases eq_or_ne k ((i + 1) % P.length) with rfl | hkp
      · rw [hget, Equiv.swap_apply_right, ← hc]
        exact nodup_get?_ne P hndP hi hp (fun h => hpi h.symm)
      · rw [hget, Equiv.swap_apply_of_ne_of_ne (fun h => hik h.symm) hkp]
        exact hinv k hklt
  · rw [if_neg hc]
    refine ⟨hperm, ?_⟩
    intro k hk
    rcases eq_or_ne i k with rfl | hik
    · exact fun h => hc h.symm
    · exact hinv k (by omega)

theorem fixAux_no_fixed_point (P : List α) (hndP : P.Nodup) (h2 : 2 ≤ P.length) :
    ∀ (fuel i : ℕ) (R : List α), i + fuel = P.length → List.Perm R P →
      (∀ k, k < i → R.get? k ≠ P.get? k) →
      ∀ k, k < P.length → (fixAux P fuel i R).get? k ≠ P.get? k := by
  intro fuel
  induction fuel with
  | zero =>
    intro i R hif hperm hinv k hk
    exact hinv k (by omega)
  | succ fuel ih =>
    intro i R hif hperm hinv k hk
    rw [fixAux]
    have hi : i < P.length := by omega
    obtain ⟨hperm2, hinv2⟩ := fixStep_invariant P hndP h2 R hperm i hi hinv
    exact ih (i + 1) _ (by omega) hperm2 hinv2 k hk

/-- The whole repair pass: starting from any permutation of a duplicate-free
list of length at least two, the output has no fixed point at all. -/
theorem fixPass_no_fixed_point (P R : List α) (hndP : P.Nodup)
    (h2 : 2 ≤ P.length) (hperm : List.Perm R P) :
    ∀ k, k < P.length → (fixPass P R).get? k ≠ P.get? k :=
  fixAux_no_fixed_point P hndP h2 P.length 0 R (by omega) hperm
    (fun k hk => absurd hk (Nat.not_lt_zero k))

theorem fixPass_perm (P R : List α) : List.Perm (fixPass P R) R :=
  fixAux_perm P P.length 0 R

theorem fixPass_length (P R : List α) : (fixPass P R).length = R.length :=
  fixAux_length P P.length 0 R

/-! ## The data model

Records as stored by `backend/database-json.js` (`database.json` arrays),
restricted to the fields the routes consult.  Record ids (`generateId`) and
timestamps are irrelevant to every claim except the pending request's
`requestedAt`, which is kept. -/

/-- An Exchange record (`db.createExchange`). -/
structure Exchange where
  id : ℕ
  name : String
  giftBudget : ℕ
  createdBy : ℕ
  assignmentsGenerated : Bool
deriving DecidableEq

/-- A Participant record: approved membership of a user in an exchange. -/
structure Participant where
  exchangeId : ℕ
  userId : ℕ
deriving DecidableEq

/-- A PendingParticipant record: an unapproved join request. -/
structure PendingParticipant where
  exchangeId : ℕ
  userId : ℕ
  requestedAt : ℕ
deriving DecidableEq

/-- An Assignment record: one giver→recipient pairing. -/
structure Assignment where
  exchangeId : ℕ
  giverId : ℕ
  recipientId : ℕ
deriving DecidableEq

/-- The whole JSON store. -/
structure DB where
  exchanges : List Exchange
  participants : List Participant
  pendingParticipants : List PendingParticipant
  assignments : List Assignment
deriving DecidableEq

/-- The empty store the backend starts from. -/
def DB.empty : DB := ⟨[], [], [], []⟩

/-! Database accessors, one per method of `database-json.js` used by the
exchange routes. -/

def getExchangeById (db : DB) (id : ℕ) : Option Exchange :=
  db.exchanges.find? (fun e => e.id == id)

def getParticipantsByExchangeId (db : DB) (exId : ℕ) : List Participant :=
  db.participants.filter (fun p => p.exchangeId == exId)

def getParticipant (db : DB) (exId u : ℕ) : Option Participant :=
  db.participants.find? (fun p => p.exchangeId == exId && p.userId == u)

def getPendingParticipant (db : DB) (exId u : ℕ) : Option PendingParticipant :=
  db.pendingParticipants.find? (fun p => p.exchangeId == exId && p.userId == u)

def addParticipant (db : DB) (exId u : ℕ) : DB :=
  { db with participants := db.participants ++ [⟨exId, u⟩] }

def addPendingParticipant (db : DB) (exId u now : ℕ) : DB :=
  { db with pendingParticipants := db.pendingParticipants ++ [⟨exId, u, now⟩] }

def removePendingParticipant (db : DB) (exId u : ℕ) : DB :=
  { db with pendingParticipants :=
      db.pendingParticipants.eraseP (fun p => p.exchangeId == exId && p.userId == u) }

def createAssignmentRec (db : DB) (exId g r : ℕ) : DB :=
  { db with assignments := db.assignments ++ [⟨exId, g, r⟩] }

/-- `db.updateExchange(id, { assignmentsGenerated: b })`: update the first
record whose id matches, leave the rest alone. -/
def updateAssignmentsGenerated : List Exchange → ℕ → Bool → List Exchange
  | [], _, _ => []
  | e :: es, id, b =>
    if e.id == id then { e with assignmentsGenerated := b } :: es
    else e :: updateAssignmentsGenerated es id b

/-! ## Route handlers (`backend/routes/exchanges.js`)

Each handler returns its outcome (the HTTP response class) together with the
store it leaves behind. -/

inductive CreateRes
  | missingFields
  | created
deriving DecidableEq

/-- `POST /api/exchanges`: `if (!name || !giftBudget || !createdBy)` → 400;
otherwise create the exchange and add the creator as first participant. -/
def createExchange (db : DB) (name : String) (giftBudget createdBy newId : ℕ) :
    CreateRes × DB :=
  if name = "" ∨ giftBudget = 0 ∨ createdBy = 0 then (.missingFields, db)
  else
    (.created,
      addParticipant
        { db with exchanges :=
            db.exchanges ++ [⟨newId, name, giftBudget, createdBy, false⟩] }
        newId createdBy)

inductive JoinRes
  | missingUserId
  | exchangeNotFound
  | alreadyParticipant
  | alreadyPending
  | ok
deriving DecidableEq

/-- `POST /api/exchanges/:id/request-join`. -/
def requestJoin (db : DB) (exId u now : ℕ) : JoinRes × DB :=
  if u = 0 then (.missingUserId, db)
  else
    match getExchangeById db exId with
    | none => (.exchangeNotFound, db)
    | some _ =>
      if (getParticipant db exId u).isSome then (.alreadyParticipant, db)
      else if (getPendingParticipant db exId u).isSome then (.alreadyPending, db)
      else (.ok, addPendingParticipant db exId u now)

inductive ApproveRes
  | missingUserId
  | exchangeNotFound
  | noPendingRequest
  | ok
deriving DecidableEq

/-- `POST /api/exchanges/:id/approve-participant`: note the handler performs
no check of `assignmentsGenerated`. -/
def approveParticipant (db : DB) (exId u : ℕ) : ApproveRes × DB :=
  if u = 0 then (.missingUserId, db)
  else
    match getExchangeById db exId with
    | none => (.exchangeNotFound, db)
    | some _ =>
      match getPendingParticipant db exId u with
      | none => (.noPendingRequest, db)
      | some _ => (.ok, addParticipant (removePendingParticipant db exId u) exId u)

inductive DeclineRes
  | missingUserId
  | exchangeNotFound
  | noPendingRequest
  | ok
deriving DecidableEq

/-- `POST /api/exchanges/:id/decline-participant`. -/
def declineParticipant (db : DB) (exId u : ℕ) : DeclineRes × DB :=
  if u = 0 then (.missingUserId, db)
  else
    match getExchangeById db exId with
    | none => (.exchangeNotFound, db)
    | some _ =>
      if (getPendingParticipant db exId u).isSome
      then (.ok, removePendingParticipant db exId u)
      else (.noPendingRequest, db)

inductive GenRes
  | exchangeNotFound
  | insufficientParticipants
  | alreadyGenerated
  | generationFailed
  | generated
deriving DecidableEq

/-- The persistence loop of `generate-assignments`: walk the
`(giverId, recipientId)` pairs in order, bail out with the 500 response when
a self-pair shows up, otherwise append each Assignment record. -/
def persistAssignments (exId : ℕ) : List (ℕ × ℕ) → DB → Bool × DB
  | [], db => (true, db)
  | (g, r) :: rest, db =>
    if g == r then (false, db)
    else persistAssignments exId rest (createAssignmentRec db exId g r)

/-- The approved-participant id list `userIds` of the generation handler. -/
def exchangeUserIds (db : DB) (exId : ℕ) : List ℕ :=
  (getParticipantsByExchangeId db exId).map (fun p => p.userId)

/-- The recipient list after shuffle and repair pass. -/
def genRecipients (jf : ℕ → ℕ) (db : DB) (exId : ℕ) : List ℕ :=
  fixPass (exchangeUserIds db exId) (sattolo jf (exchangeUserIds db exId))

/-- `POST /api/exchanges/:id/generate-assignments`, with the random draws
supplied by the oracle `jf`. -/
def generateAssignments (jf : ℕ → ℕ) (db : DB) (exId : ℕ) : GenRes × DB :=
  match getExchangeById db exId with
  | none => (.exchangeNotFound, db)
  | some ex =>
    if (exchangeUserIds db exId).length < 3 then (.insufficientParticipants, db)
    else if ex.assignmentsGenerated then (.alreadyGenerated, db)
    else
      match persistAssignments exId
          ((exchangeUserIds db exId).zip (genRecipients jf db exId)) db with
      | (false, db1) => (.generationFailed, db1)
      | (true, db1) =>
        (.generated,
          { db1 with exchanges := updateAssignmentsGenerated db1.exchanges exId true })

/-! ## Reachable states

One step per operation of the admission/generation workflow, with the two
oracle side conditions: `generateId` hands out an exchange id not in use, and
`Math.floor(Math.random() * i)` lands in `[0, i-1]`. -/

inductive Step : DB → DB → Prop
  | create (db : DB) (name : String) (giftBudget createdBy newId : ℕ)
      (hfresh : ∀ e ∈ db.exchanges, e.id ≠ newId) :
      Step db (createExchange db name giftBudget createdBy newId).2
  | join (db : DB) (exId u now : ℕ) :
      Step db (requestJoin db exId u now).2
  | approve (db : DB) (exId u : ℕ) :
      Step db (approveParticipant db exId u).2
  | decline (db : DB) (exId u : ℕ) :
      Step db (declineParticipant db exId u).2
  | gen (db : DB) (exId : ℕ) (jf : ℕ → ℕ) (hjf : ∀ i, 1 ≤ i → jf i < i) :
      Step db (generateAssignments jf db exId).2

inductive Reachable : DB → Prop
  | init : Reachable DB.empty
  | step {db db1 : DB} : Reachable db → Step db db1 → Reachable db1

/-! ## Characterisations of the accessors -/

/-- The Assignment records a successful generation appends. -/
def genRecords (jf : ℕ → ℕ) (db : DB) (exId : ℕ) : List Assignment :=
  ((exchangeUserIds db exId).zip (genRecipients jf db exId)).map
    (fun pr => ⟨exId, pr.1, pr.2⟩)

theorem getExchangeById_some {db : DB} {exId : ℕ} {ex : Exchange}
    (h : getExchangeById db exId = some ex) :
    ex ∈ db.exchanges ∧ ex.id = exId := by
  refine ⟨List.mem_of_find?_eq_some h, ?_⟩
  have := List.find?_some h
  simpa using this

theorem getParticipant_none {db : DB} {exId u : ℕ} :
    getParticipant db exId u = none ↔
      ∀ p ∈ db.participants, ¬(p.exchangeId = exId ∧ p.userId = u) := by
  simp [getParticipant, List.find?_eq_none]

theorem getParticipant_isSome {db : DB} {exId u : ℕ} :
    (getParticipant db exId u).isSome = true ↔
      ∃ p ∈ db.participants, p.exchangeId = exId ∧ p.userId = u := by
  rcases h : getParticipant db exId u with - | p
  · simp only [Option.isSome_none, Bool.false_eq_true, false_iff]
    rw [getParticipant_none] at h
    push_neg at h
    simpa using h
  · simp only [Option.isSome_some, true_iff]
    refine ⟨p, List.mem_of_find?_eq_some h, ?_⟩
    have := List.find?_some h
    simpa using this

theorem getPendingParticipant_none {db : DB} {exId u : ℕ} :
    getPendingParticipant db exId u = none ↔
      ∀ p ∈ db.pendingParticipants, ¬(p.exchangeId = exId ∧ p.userId = u) := by
  simp [getPendingParticipant, List.find?_eq_none]

theorem getPendingParticipant_some {db : DB} {exId u : ℕ} {p : PendingParticipant}
    (h : getPendingParticipant db exId u = some p) :
    p ∈ db.pendingParticipants ∧ p.exchangeId = exId ∧ p.userId = u := by
  refine ⟨List.mem_of_find?_eq_some h, ?_⟩
  have := List.find?_some h
  simpa using this

theorem getPendingParticipant_isSome {db : DB} {exId u : ℕ} :
    (getPendingParticipant db exId u).isSome = true ↔
      ∃ p ∈ db.pendingParticipants, p.exchangeId = exId ∧ p.userId = u := by
  rcases h : getPendingParticipant db exId u with - | p
  · simp only [Option.isSome_none, Bool.false_eq_true, false_iff]
    rw [getPendingParticipant_none] at h
    push_neg at h
    simpa using h
  · simp only [Option.isSome_some, true_iff]
    exact ⟨p, (getPendingParticipant_some h).1, (getPendingParticipant_some h).2⟩

theorem mem_getParticipantsByExchangeId {db : DB} {exId : ℕ} {p : Participant} :
    p ∈ getParticipantsByExchangeId db exId ↔
      p ∈ db.participants ∧ p.exchangeId = exId := by
  simp [getParticipantsByExchangeId, List.mem_filter]

/-- Per-exchange user ids are duplicate-free whenever the global
`(exchangeId, userId)` keys are. -/
theorem exchangeUserIds_nodup (db : DB) (exId : ℕ)
    (hpk : (db.participants.map (fun p => (p.exchangeId, p.userId))).Nodup) :
    (exchangeUserIds db exId).Nodup := by
  have h1 : db.participants.Nodup := hpk.of_map _
  have h2 : (getParticipantsByExchangeId db exId).Nodup :=
    (List.filter_sublist _).nodup h1
  refine List.Nodup.map_on ?_ h2
  intro p hp q hq huid
  have hpx := (mem_getParticipantsByExchangeId.mp hp)
  have hqx := (mem_getParticipantsByExchangeId.mp hq)
  have hkeys : (p.exchangeId, p.userId) = (q.exchangeId, q.userId) := by
    rw [hpx.2, hqx.2, huid]
  cases p
  cases q
  simp only [Prod.mk.injEq] at hkeys
  simp [hkeys.1, hkeys.2]

/-! ## The persistence loop and the flag update -/

theorem persistAssignments_success (exId : ℕ) :
    ∀ (prs : List (ℕ × ℕ)) (db : DB), (∀ pr ∈ prs, pr.1 ≠ pr.2) →
      persistAssignments exId prs db =
        (true, { db with assignments :=
          db.assignments ++ prs.map (fun pr => ⟨exId, pr.1, pr.2⟩) }) := by
  intro prs
  induction prs with
  | nil => intro db _; simp [persistAssignments]
  | cons pr rest ih =>
    intro db hne
    obtain ⟨g, r⟩ := pr
    have hgr : g ≠ r := hne (g, r) (List.mem_cons_self _ _)
    rw [persistAssignments, if_neg (by simpa using hgr),
      ih _ (fun x hx => hne x (List.mem_cons_of_mem _ hx))]
    simp [createAssignmentRec]

theorem updateAssignmentsGenerated_map_id (es : List Exchange) (id : ℕ) (b : Bool) :
    (updateAssignmentsGenerated es id b).map (fun e => e.id) =
      es.map (fun e => e.id) := by
  induction es with
  | nil => rfl
  | cons e es ih =>
    rw [updateAssignmentsGenerated]
    split
    · rfl
    · simpa using ih

theorem mem_updateAssignmentsGenerated {es : List Exchange} {id : ℕ} {b : Bool}
    {e1 : Exchange} (h : e1 ∈ updateAssignmentsGenerated es id b) :
    e1 ∈ es ∨ (e1.assignmentsGenerated = b ∧ e1.id = id ∧
      ∃ e ∈ es, e1 = { e with assignmentsGenerated := b }) := by
  induction es with
  | nil => cases h
  | cons e es ih =>
    rw [updateAssignmentsGenerated] at h
    by_cases hc : e.id = id
    · rw [if_pos (by simpa using hc)] at h
      rcases List.mem_cons.mp h with h1 | h1
      · exact Or.inr ⟨by rw [h1], by rw [h1]; exact hc,
          e, List.mem_cons_self _ _, h1⟩
      · exact Or.inl (List.mem_cons_of_mem _ h1)
    · rw [if_neg (by simpa using hc)] at h
      rcases List.mem_cons.mp h with h1 | h1
      · exact Or.inl (h1 ▸ List.mem_cons_self _ _)
      · rcases ih h1 with h2 | ⟨h2, h3, e2, he2, h4⟩
        · exact Or.inl (List.mem_cons_of_mem _ h2)
        · exact Or.inr ⟨h2, h3, e2, List.mem_cons_of_mem _ he2, h4⟩

/-- With duplicate-free ids, a record of the updated list that does not carry
the new flag value is an untouched record with a different id. -/
theorem mem_updateAssignmentsGenerated_of_flag_ne {es : List Exchange} {id : ℕ}
    {b : Bool} {e1 : Exchange}
    (hnd : (es.map (fun e => e.id)).Nodup)
    (hex : ∃ e ∈ es, e.id = id)
    (h : e1 ∈ updateAssignmentsGenerated es id b)
    (hflag : e1.assignmentsGenerated ≠ b) :
    e1 ∈ es ∧ e1.id ≠ id := by
  induction es with
  | nil => cases h
  | cons e es ih =>
    rw [updateAssignmentsGenerated] at h
    rw [List.map_cons, List.nodup_cons] at hnd
    by_cases hc : e.id = id
    · rw [if_pos (by simpa using hc)] at h
      rcases List.mem_cons.mp h with h1 | h1
      · exact absurd (by rw [h1]) hflag
      · refine ⟨List.mem_cons_of_mem _ h1, ?_⟩
        intro hcontra
        exact hnd.1 (hc ▸ hcontra ▸ List.mem_map_of_mem (fun e => e.id) h1)
    · rw [if_neg (by simpa using hc)] at h
      rcases List.mem_cons.mp h with h1 | h1
      · exact ⟨h1 ▸ List.mem_cons_self _ _, h1 ▸ hc⟩
      · obtain ⟨e2, he2, hid2⟩ := hex
        have he2' : e2 ∈ es := by
          rcases List.mem_cons.mp he2 with h3 | h3
          · exact absurd (h3 ▸ hid2) hc
          · exact h3
        obtain ⟨hmem, hne⟩ := ih hnd.2 ⟨e2, he2', hid2⟩ h1
        exact ⟨List.mem_cons_of_mem _ hmem, hne⟩

theorem updateAssignmentsGenerated_mem_of_ne {es : List Exchange} {id : ℕ}
    {b : Bool} {e1 : Exchange} (h : e1 ∈ es) (hne : e1.id ≠ id) :
    e1 ∈ updateAssignmentsGenerated es id b := by
  induction es with
  | nil => cases h
  | cons e es ih =>
    rw [updateAssignmentsGenerated]
    split
    · rcases List.mem_cons.mp h with h1 | h1
      · rename_i hc
        simp only [beq_iff_eq] at hc
        exact absurd (h1 ▸ hc) hne
      · exact List.mem_cons_of_mem _ h1
    · rcases List.mem_cons.mp h with h1 | h1
      · exact h1 ▸ List.mem_cons_self _ _
      · exact List.mem_cons_of_mem _ (ih h1)

/-! ## Shape of the generation handler -/

theorem genRecipients_props (jf : ℕ → ℕ) (hjf : ∀ i, 1 ≤ i → jf i < i)
    (db : DB) (exId : ℕ) (hnd : (exchangeUserIds db exId).Nodup)
    (h3 : 3 ≤ (exchangeUserIds db exId).length) :
    List.Perm (genRecipients jf db exId) (exchangeUserIds db exId) ∧
    (∀ k, k < (exchangeUserIds db exId).length →
      (genRecipients jf db exId).get? k ≠ (exchangeUserIds db exId).get? k) := by
  have h2 : 2 ≤ (exchangeUserIds db exId).length := by omega
  have hS : List.Perm (sattolo jf (exchangeUserIds db exId)) (exchangeUserIds db exId) :=
    (sattolo_props _ hnd h2 jf hjf).1
  exact ⟨(fixPass_perm _ _).trans hS,
    fixPass_no_fixed_point _ _ hnd h2 hS⟩

theorem genPairs_ne (jf : ℕ → ℕ) (hjf : ∀ i, 1 ≤ i → jf i < i)
    (db : DB) (exId : ℕ) (hnd : (exchangeUserIds db exId).Nodup)
    (h3 : 3 ≤ (exchangeUserIds db exId).length) :
    ∀ pr ∈ (exchangeUserIds db exId).zip (genRecipients jf db exId),
      pr.1 ≠ pr.2 := by
  obtain ⟨-, hnofix⟩ := genRecipients_props jf hjf db exId hnd h3
  intro pr hpr h12
  obtain ⟨n, hn⟩ := List.mem_iff_get?.mp hpr
  obtain ⟨h1, h2⟩ := (List.get?_zip_eq_some _ _ pr n).mp hn
  obtain ⟨hlt, -⟩ := List.get?_eq_some.mp h1
  exact hnofix n hlt (h2.trans (h12 ▸ h1.symm))

theorem genRecords_props (jf : ℕ → ℕ) (hjf : ∀ i, 1 ≤ i → jf i < i)
    (db : DB) (exId : ℕ) (hnd : (exchangeUserIds db exId).Nodup)
    (h3 : 3 ≤ (exchangeUserIds db exId).length) :
    (genRecords jf db exId).map (fun a => a.giverId) = exchangeUserIds db exId ∧
    List.Perm ((genRecords jf db exId).map (fun a => a.recipientId))
      (exchangeUserIds db exId) ∧
    (∀ a ∈ genRecords jf db exId, a.exchangeId = exId ∧ a.giverId ≠ a.recipientId) ∧
    (genRecords jf db exId).length = (exchangeUserIds db exId).length := by
  obtain ⟨hperm, -⟩ := genRecipients_props jf hjf db exId hnd h3
  have hlen : (genRecipients jf db exId).length = (exchangeUserIds db exId).length :=
    hperm.length_eq
  have hg : (genRecords jf db exId).map (fun a => a.giverId) =
      exchangeUserIds db exId := by
    rw [genRecords, List.map_map]
    exact List.map_fst_zip _ _ (by omega)
  have hr : (genRecords jf db exId).map (fun a => a.recipientId) =
      genRecipients jf db exId := by
    rw [genRecords, List.map_map]
    exact List.map_snd_zip _ _ (by omega)
  refine ⟨hg, hr ▸ hperm, ?_, ?_⟩
  · intro a ha
    obtain ⟨pr, hpr, rfl⟩ := List.mem_map.mp ha
    exact ⟨rfl, genPairs_ne jf hjf db exId hnd h3 pr hpr⟩
  · have := congrArg List.length hg
    simpa using this

/-- Complete case analysis of the generation handler on a store whose
per-exchange participant ids are duplicate-free. -/
theorem generateAssignments_cases (jf : ℕ → ℕ) (hjf : ∀ i, 1 ≤ i → jf i < i)
    (db : DB) (exId : ℕ) (hnd : (exchangeUserIds db exId).Nodup) :
    (getExchangeById db exId = none ∧
      generateAssignments jf db exId = (.exchangeNotFound, db)) ∨
    (∃ ex, getExchangeById db exId = some ex ∧
      (exchangeUserIds db exId).length < 3 ∧
      generateAssignments jf db exId = (.insufficientParticipants, db)) ∨
    (∃ ex, getExchangeById db exId = some ex ∧
      3 ≤ (exchangeUserIds db exId).length ∧
      ex.assignmentsGenerated = true ∧
      generateAssignments jf db exId = (.alreadyGenerated, db)) ∨
    (∃ ex, getExchangeById db exId = some ex ∧
      3 ≤ (exchangeUserIds db exId).length ∧
      ex.assignmentsGenerated = false ∧
      generateAssignments jf db exId =
        (.generated,
          { db with
              assignments := db.assignments ++ genRecords jf db exId,
              exchanges := updateAssignmentsGenerated db.exchanges exId true })) := by
  cases hfind : getExchangeById db exId with
  | none =>
    exact Or.inl ⟨rfl, by rw [generateAssignments, hfind]⟩
  | some ex =>
    by_cases hlen : (exchangeUserIds db exId).length < 3
    · refine Or.inr (Or.inl ⟨ex, rfl, hlen, ?_⟩)
      rw [generateAssignments, hfind]
      dsimp only
      rw [if_pos hlen]
    · cases hflag : ex.assignmentsGenerated with
      | true =>
        refine Or.inr (Or.inr (Or.inl ⟨ex, rfl, by omega, hflag, ?_⟩))
        rw [generateAssignments, hfind]
        dsimp only
        rw [if_neg hlen, hflag, if_pos rfl]
      | false =>
        refine Or.inr (Or.inr (Or.inr ⟨ex, rfl, by omega, hflag, ?_⟩))
        rw [generateAssignments, hfind]
        dsimp only
        rw [if_neg hlen, hflag, if_neg (by simp),
          persistAssignments_success exId _ db
            (genPairs_ne jf hjf db exId hnd (by omega))]
        rfl

/-! ## The workflow invariant

`Inv` collects the structural facts that every reachable store satisfies:
uniqueness of the `(exchangeId, userId)` keys, disjointness of participants
and pending requests, referential integrity, and the generation facts the
one-shot claims rest on. -/

structure Inv (db : DB) : Prop where
  partKeys : (db.participants.map (fun p => (p.exchangeId, p.userId))).Nodup
  pendKeys : (db.pendingParticipants.map (fun p => (p.exchangeId, p.userId))).Nodup
  disj : ∀ p ∈ db.participants, ∀ q ∈ db.pendingParticipants,
    ¬(p.exchangeId = q.exchangeId ∧ p.userId = q.userId)
  exIds : (db.exchanges.map (fun e => e.id)).Nodup
  partEx : ∀ p ∈ db.participants, ∃ e ∈ db.exchanges, e.id = p.exchangeId
  pendEx : ∀ q ∈ db.pendingParticipants, ∃ e ∈ db.exchanges, e.id = q.exchangeId
  genCount : ∀ e ∈ db.exchanges, e.assignmentsGenerated = true →
    3 ≤ (exchangeUserIds db e.id).length
  assignEx : ∀ a ∈ db.assignments, ∃ e ∈ db.exchanges, e.id = a.exchangeId
  noEarlyAssign : ∀ e ∈ db.exchanges, e.assignmentsGenerated = false →
    ∀ a ∈ db.assignments, a.exchangeId ≠ e.id

theorem nodup_append_singleton {β : Type*} {l : List β} {x : β}
    (h : l.Nodup) (hx : x ∉ l) : (l ++ [x]).Nodup := by
  rw [List.nodup_append]
  refine ⟨h, List.nodup_singleton x, ?_⟩
  intro a ha hax
  rw [List.mem_singleton] at hax
  exact hx (hax ▸ ha)

/-- A member of the pending list surviving the erase of a key cannot carry
the erased key, provided keys are duplicate-free. -/
theorem mem_eraseP_key {pend : List PendingParticipant}
    (hnd : (pend.map (fun p => (p.exchangeId, p.userId))).Nodup) {exId u : ℕ}
    {q : PendingParticipant}
    (hq : q ∈ pend.eraseP (fun p => p.exchangeId == exId && p.userId == u)) :
    q ∈ pend ∧ ¬(q.exchangeId = exId ∧ q.userId = u) := by
  induction pend with
  | nil => simp [List.eraseP_nil] at hq
  | cons r rest ih =>
    rw [List.map_cons, List.nodup_cons] at hnd
    rw [List.eraseP_cons] at hq
    by_cases hp : (r.exchangeId == exId && r.userId == u) = true
    · rw [hp, cond_true] at hq
      simp only [Bool.and_eq_true, beq_iff_eq] at hp
      refine ⟨List.mem_cons_of_mem _ hq, ?_⟩
      rintro ⟨h1, h2⟩
      refine hnd.1 ?_
      have hkey : (r.exchangeId, r.userId) = (q.exchangeId, q.userId) := by
        rw [hp.1, hp.2, h1, h2]
      exact hkey ▸ List.mem_map_of_mem _ hq
    · have hp2 : (r.exchangeId == exId && r.userId == u) = false := by
        simpa using hp
      rw [hp2, cond_false] at hq
      rcases List.mem_cons.mp hq with h1 | h1
      · subst h1
        refine ⟨List.mem_cons_self _ _, ?_⟩
        rintro ⟨h1, h2⟩
        simp [h1, h2] at hp2
      · obtain ⟨hmem, hkey⟩ := ih hnd.2 h1
        exact ⟨List.mem_cons_of_mem _ hmem, hkey⟩

theorem exists_id_of_map_eq {es es1 : List Exchange}
    (h : es1.map (fun e => e.id) = es.map (fun e => e.id)) {x : ℕ} :
    (∃ e ∈ es, e.id = x) → ∃ e ∈ es1, e.id = x := by
  rintro ⟨e, he, hx⟩
  have hmem : x ∈ es1.map (fun e => e.id) := by
    rw [h, ← hx]
    exact List.mem_map_of_mem _ he
  obtain ⟨e1, he1, hx1⟩ := List.mem_map.mp hmem
  exact ⟨e1, he1, hx1⟩

theorem exchangeUserIds_length_mono (parts : List Participant)
    (p0 : Participant) (exId : ℕ) :
    (parts.filter (fun p => p.exchangeId == exId)).length ≤
      ((parts ++ [p0]).filter (fun p => p.exchangeId == exId)).length := by
  rw [List.filter_append, List.length_append]
  omega

theorem inv_empty : Inv DB.empty := by
  constructor <;> simp [DB.empty]

theorem exchangeUserIds_append_length (db : DB) (pc : Participant) (x : ℕ)
    (db2 : DB) (hparts : db2.participants = db.participants ++ [pc]) :
    (exchangeUserIds db x).length ≤ (exchangeUserIds db2 x).length := by
  simp only [exchangeUserIds, getParticipantsByExchangeId, List.length_map,
    hparts, List.filter_append, List.length_append]
  omega

theorem inv_create (db : DB) (name : String) (gb cb newId : ℕ)
    (hfresh : ∀ e ∈ db.exchanges, e.id ≠ newId) (hI : Inv db) :
    Inv (createExchange db name gb cb newId).2 := by
  rw [createExchange]
  split
  · exact hI
  · show Inv { db with
      exchanges := db.exchanges ++ [⟨newId, name, gb, cb, false⟩],
      participants := db.participants ++ [⟨newId, cb⟩] }
    have hfreshPart : ∀ p ∈ db.participants, p.exchangeId ≠ newId := by
      intro p hp hcontra
      obtain ⟨e, he, hid⟩ := hI.partEx p hp
      exact hfresh e he (hid.trans hcontra)
    have hfreshPend : ∀ q ∈ db.pendingParticipants, q.exchangeId ≠ newId := by
      intro q hq hcontra
      obtain ⟨e, he, hid⟩ := hI.pendEx q hq
      exact hfresh e he (hid.trans hcontra)
    refine ⟨?_, hI.pendKeys, ?_, ?_, ?_, ?_, ?_, ?_, ?_⟩
    · show ((db.participants ++ [(⟨newId, cb⟩ : Participant)]).map
        (fun p : Participant => (p.exchangeId, p.userId))).Nodup
      rw [List.map_append]
      refine nodup_append_singleton hI.partKeys ?_
      intro hmem
      obtain ⟨p, hp, hkey⟩ := List.mem_map.mp hmem
      simp only [Prod.mk.injEq] at hkey
      exact hfreshPart p hp hkey.1
    · intro p hp q hq
      rcases List.mem_append.mp hp with h1 | h1
      · exact hI.disj p h1 q hq
      · rw [List.mem_singleton] at h1
        subst h1
        rintro ⟨h2, -⟩
        exact hfreshPend q hq h2.symm
    · show ((db.exchanges ++ [(⟨newId, name, gb, cb, false⟩ : Exchange)]).map
        (fun e : Exchange => e.id)).Nodup
      rw [List.map_append]
      refine nodup_append_singleton hI.exIds ?_
      intro hmem
      obtain ⟨e, he, hkey⟩ := List.mem_map.mp hmem
      exact hfresh e he hkey
    · intro p hp
      rcases List.mem_append.mp hp with h1 | h1
      · obtain ⟨e, he, hid⟩ := hI.partEx p h1
        exact ⟨e, List.mem_append_left _ he, hid⟩
      · rw [List.mem_singleton] at h1
        subst h1
        exact ⟨⟨newId, name, gb, cb, false⟩,
          List.mem_append_right _ (List.mem_singleton_self _), rfl⟩
    · intro q hq
      obtain ⟨e, he, hid⟩ := hI.pendEx q hq
      exact ⟨e, List.mem_append_left _ he, hid⟩
    · intro e he hflag
      rcases List.mem_append.mp he with h1 | h1
      · refine le_trans (hI.genCount e h1 hflag) ?_
        exact exchangeUserIds_append_length db ⟨newId, cb⟩ e.id _ rfl
      · rw [List.mem_singleton] at h1
        subst h1
        simp at hflag
    · intro a ha
      obtain ⟨e, he, hid⟩ := hI.assignEx a ha
      exact ⟨e, List.mem_append_left _ he, hid⟩
    · intro e he hflag a ha
      rcases List.mem_append.mp he with h1 | h1
      · exact hI.noEarlyAssign e h1 hflag a ha
      · rw [List.mem_singleton] at h1
        subst h1
        intro hcontra
        obtain ⟨e1, he1, hid1⟩ := hI.assignEx a ha
        exact hfresh e1 he1 (hid1.trans hcontra)

theorem inv_join (db : DB) (exId u now : ℕ) (hI : Inv db) :
    Inv (requestJoin db exId u now).2 := by
  rw [requestJoin]
  by_cases hu : u = 0
  · rw [if_pos hu]; exact hI
  · rw [if_neg hu]
    cases hfind : getExchangeById db exId with
    | none => exact hI
    | some ex =>
      dsimp only
      by_cases hpart : (getParticipant db exId u).isSome = true
      · rw [if_pos hpart]; exact hI
      · rw [if_neg hpart]
        by_cases hpend : (getPendingParticipant db exId u).isSome = true
        · rw [if_pos hpend]; exact hI
        · rw [if_neg hpend]
          obtain ⟨hexmem, hexid⟩ := getExchangeById_some hfind
          have hnopart : ∀ p ∈ db.participants,
              ¬(p.exchangeId = exId ∧ p.userId = u) := by
            rw [← getParticipant_none]
            rcases h : getParticipant db exId u with - | p
            · rfl
            · rw [h] at hpart; simp at hpart
          have hnopend : ∀ p ∈ db.pendingParticipants,
              ¬(p.exchangeId = exId ∧ p.userId = u) := by
            rw [← getPendingParticipant_none]
            rcases h : getPendingParticipant db exId u with - | p
            · rfl
            · rw [h] at hpend; simp at hpend
          show Inv { db with pendingParticipants :=
            db.pendingParticipants ++ [⟨exId, u, now⟩] }
          refine ⟨hI.partKeys, ?_, ?_, hI.exIds, hI.partEx, ?_,
            hI.genCount, hI.assignEx, hI.noEarlyAssign⟩
          · show ((db.pendingParticipants ++
                [(⟨exId, u, now⟩ : PendingParticipant)]).map
              (fun p : PendingParticipant => (p.exchangeId, p.userId))).Nodup
            rw [List.map_append]
            refine nodup_append_singleton hI.pendKeys ?_
            intro hmem
            obtain ⟨p, hp, hkey⟩ := List.mem_map.mp hmem
            simp only [Prod.mk.injEq] at hkey
            exact hnopend p hp ⟨hkey.1, hkey.2⟩
          · intro p hp q hq
            rcases List.mem_append.mp hq with h1 | h1
            · exact hI.disj p hp q h1
            · rw [List.mem_singleton] at h1
              subst h1
              rintro ⟨h2, h3⟩
              exact hnopart p hp ⟨h2, h3⟩
          · intro q hq
            rcases List.mem_append.mp hq with h1 | h1
            · exact hI.pendEx q h1
            · rw [List.mem_singleton] at h1
              subst h1
              exact ⟨ex, hexmem, hexid⟩

theorem inv_approve (db : DB) (exId u : ℕ) (hI : Inv db) :
    Inv (approveParticipant db exId u).2 := by
  rw [approveParticipant]
  by_cases hu : u = 0
  · rw [if_pos hu]; exact hI
  · rw [if_neg hu]
    cases hfind : getExchangeById db exId with
    | none => exact hI
    | some ex =>
      dsimp only
      cases hpend : getPendingParticipant db exId u with
      | none => exact hI
      | some q0 =>
        dsimp only
        obtain ⟨hexmem, hexid⟩ := getExchangeById_some hfind
        obtain ⟨hq0mem, hq0ex, hq0u⟩ := getPendingParticipant_some hpend
        show Inv { db with
          participants := db.participants ++ [(⟨exId, u⟩ : Participant)],
          pendingParticipants := db.pendingParticipants.eraseP
            (fun p => p.exchangeId == exId && p.userId == u) }
        refine ⟨?_, ?_, ?_, hI.exIds, ?_, ?_, ?_, hI.assignEx, hI.noEarlyAssign⟩
        · show ((db.participants ++ [(⟨exId, u⟩ : Participant)]).map
            (fun p : Participant => (p.exchangeId, p.userId))).Nodup
          rw [List.map_append]
          refine nodup_append_singleton hI.partKeys ?_
          intro hmem
          obtain ⟨p, hp, hkey⟩ := List.mem_map.mp hmem
          simp only [Prod.mk.injEq] at hkey
          exact hI.disj p hp q0 hq0mem ⟨hkey.1.trans hq0ex.symm,
            hkey.2.trans hq0u.symm⟩
        · exact ((List.eraseP_sublist _).map _).nodup hI.pendKeys
        · intro p hp q hq
          obtain ⟨hqmem, hqkey⟩ := mem_eraseP_key hI.pendKeys hq
          rcases List.mem_append.mp hp with h1 | h1
          · exact hI.disj p h1 q hqmem
          · rw [List.mem_singleton] at h1
            subst h1
            rintro ⟨h2, h3⟩
            exact hqkey ⟨h2.symm, h3.symm⟩
        · intro p hp
          rcases List.mem_append.mp hp with h1 | h1
          · exact hI.partEx p h1
          · rw [List.mem_singleton] at h1
            subst h1
            exact ⟨ex, hexmem, hexid⟩
        · intro q hq
          exact hI.pendEx q (mem_eraseP_key hI.pendKeys hq).1
        · intro e he hflag
          refine le_trans (hI.genCount e he hflag) ?_
          exact exchangeUserIds_append_length db ⟨exId, u⟩ e.id _ rfl

theorem inv_decline (db : DB) (exId u : ℕ) (hI : Inv db) :
    Inv (declineParticipant db exId u).2 := by
  rw [declineParticipant]
  by_cases hu : u = 0
  · rw [if_pos hu]; exact hI
  · rw [if_neg hu]
    cases hfind : getExchangeById db exId with
    | none => exact hI
    | some ex =>
      dsimp only
      by_cases hpend : (getPendingParticipant db exId u).isSome = true
      · rw [if_pos hpend]
        show Inv { db with pendingParticipants := db.pendingParticipants.eraseP (fun p => p.exchangeId == exId && p.userId == u) }
        refine ⟨hI.partKeys, ?_, ?_, hI.exIds, hI.partEx, ?_, hI.genCount,
          hI.assignEx, hI.noEarlyAssign⟩
        · exact ((List.eraseP_sublist _).map _).nodup hI.pendKeys
        · intro p hp q hq
          exact hI.disj p hp q ((List.eraseP_sublist _).subset hq)
        · intro q hq
          exact hI.pendEx q ((List.eraseP_sublist _).subset hq)
      · rw [if_neg hpend]; exact hI

theorem inv_gen (db : DB) (exId : ℕ) (jf : ℕ → ℕ)
    (hjf : ∀ i, 1 ≤ i → jf i < i) (hI : Inv db) :
    Inv (generateAssignments jf db exId).2 := by
  have hnd := exchangeUserIds_nodup db exId hI.partKeys
  rcases generateAssignments_cases jf hjf db exId hnd with
    ⟨-, heq⟩ | ⟨ex, -, -, heq⟩ | ⟨ex, -, -, -, heq⟩ | ⟨ex, hfind, h3, hflag, heq⟩
  · rw [heq]; exact hI
  · rw [heq]; exact hI
  · rw [heq]; exact hI
  · rw [heq]
    obtain ⟨hexmem, hexid⟩ := getExchangeById_some hfind
    have hmapid := updateAssignmentsGenerated_map_id db.exchanges exId true
    obtain ⟨hgiv, hrec, hprs, hlen⟩ := genRecords_props jf hjf db exId hnd h3
    refine ⟨hI.partKeys, hI.pendKeys, hI.disj, ?_, ?_, ?_, ?_, ?_, ?_⟩
    · show ((updateAssignmentsGenerated db.exchanges exId true).map
        (fun e : Exchange => e.id)).Nodup
      rw [hmapid]
      exact hI.exIds
    · intro p hp
      exact exists_id_of_map_eq hmapid (hI.partEx p hp)
    · intro q hq
      exact exists_id_of_map_eq hmapid (hI.pendEx q hq)
    · intro e1 he1 hflag1
      show 3 ≤ (exchangeUserIds db e1.id).length
      rcases mem_updateAssignmentsGenerated he1 with h1 | ⟨-, hid1, -⟩
      · exact hI.genCount e1 h1 hflag1
      · rw [hid1]
        exact h3
    · intro a ha
      rcases List.mem_append.mp ha with h1 | h1
      · exact exists_id_of_map_eq hmapid (hI.assignEx a h1)
      · obtain ⟨haex, -⟩ := hprs a h1
        refine exists_id_of_map_eq hmapid ⟨ex, hexmem, ?_⟩
        rw [hexid, haex]
    · intro e1 he1 hflag1 a ha
      have hup := mem_updateAssignmentsGenerated_of_flag_ne hI.exIds
        ⟨ex, hexmem, hexid⟩ he1 (by rw [hflag1]; simp)
      rcases List.mem_append.mp ha with h1 | h1
      · exact hI.noEarlyAssign e1 hup.1 hflag1 a h1
      · obtain ⟨haex, -⟩ := hprs a h1
        rw [haex]
        exact fun hcontra => hup.2 hcontra.symm

theorem step_inv {db db1 : DB} (hI : Inv db) (h : Step db db1) : Inv db1 := by
  cases h with
  | create name gb cb newId hfresh => exact inv_create _ name gb cb newId hfresh hI
  | join exId u now => exact inv_join _ exId u now hI
  | approve exId u => exact inv_approve _ exId u hI
  | decline exId u => exact inv_decline _ exId u hI
  | gen exId jf hjf => exact inv_gen _ exId jf hjf hI

/-- Every reachable store satisfies the workflow invariant. -/
theorem reachable_inv {db : DB} (h : Reachable db) : Inv db := by
  induction h with
  | init => exact inv_empty
  | step hr hs ih => exact step_inv ih hs

/-! ## Further consequences used by the claims -/

theorem find_updateAssignmentsGenerated {es : List Exchange} {exId : ℕ}
    {ex : Exchange} (hfind : es.find? (fun e => e.id == exId) = some ex) :
    (updateAssignmentsGenerated es exId true).find? (fun e => e.id == exId) =
      some { ex with assignmentsGenerated := true } := by
  induction es with
  | nil => simp at hfind
  | cons e es ih =>
    by_cases hc : (e.id == exId) = true
    · rw [@List.find?_cons_of_pos Exchange (fun e => e.id == exId) e es hc] at hfind
      cases hfind
      rw [updateAssignmentsGenerated, if_pos hc]
      exact @List.find?_cons_of_pos Exchange (fun e1 => e1.id == exId)
        { ex with assignmentsGenerated := true } es hc
    · rw [@List.find?_cons_of_neg Exchange (fun e => e.id == exId) e es hc] at hfind
      rw [updateAssignmentsGenerated, if_neg hc]
      rw [@List.find?_cons_of_neg Exchange (fun e => e.id == exId) e
        (updateAssignmentsGenerated es exId true) hc]
      exact ih hfind

/-- On a reachable store, an exchange whose flag is set always has at least
three participants, so the handler reaches the flag guard and reports
`alreadyGenerated` without touching the store. -/
theorem generate_already (db : DB) (exId : ℕ) (jf : ℕ → ℕ)
    (hreach : Reachable db) (ex : Exchange)
    (hfind : getExchangeById db exId = some ex)
    (hflag : ex.assignmentsGenerated = true) :
    generateAssignments jf db exId = (.alreadyGenerated, db) := by
  have hInv := reachable_inv hreach
  have h3 : 3 ≤ (exchangeUserIds db ex.id).length :=
    hInv.genCount ex (getExchangeById_some hfind).1 hflag
  rw [(getExchangeById_some hfind).2] at h3
  rw [generateAssignments, hfind]
  dsimp only
  rw [if_neg (by omega), hflag, if_pos rfl]

/-! ## A concrete run of the workflow, used as evaluation witness

Creator `7` opens exchange `1`, users `8` and `9` request to join and are
approved, then assignments are generated with the oracle that always
draws `0`. -/

def wjf : ℕ → ℕ := fun _ => 0

theorem wjf_valid : ∀ i, 1 ≤ i → wjf i < i := fun _ h => h

def wdb1 : DB := (createExchange DB.empty "x" 5 7 1).2

def wdb2 : DB := (requestJoin wdb1 1 8 100).2

def wdb3 : DB := (approveParticipant wdb2 1 8).2

def wdb4 : DB := (requestJoin wdb3 1 9 101).2

def wdb5 : DB := (approveParticipant wdb4 1 9).2

def wdb6 : DB := (generateAssignments wjf wdb5 1).2

theorem wdb5_reachable : Reachable wdb5 :=
  Reachable.step
    (Reachable.step
      (Reachable.step
        (Reachable.step
          (Reachable.step Reachable.init
            (Step.create DB.empty "x" 5 7 1 (by intro e he; simp [DB.empty] at he)))
          (Step.join wdb1 1 8 100))
        (Step.approve wdb2 1 8))
      (Step.join wdb3 1 9 101))
    (Step.approve wdb4 1 9)

theorem wdb6_reachable : Reachable wdb6 :=
  Reachable.step wdb5_reachable (Step.gen wdb5 1 wjf wjf_valid)

/-! ## The claims -/

def wdb7 : DB := (requestJoin wdb6 1 10 102).2

theorem wdb7_reachable : Reachable wdb7 :=
  Reachable.step wdb6_reachable (Step.join wdb6 1 10 102)

/-- C9: in every reachable store, no `(exchangeId, userId)` pair is both a
Participant and a PendingRequest of the same exchange, and each pair occurs
at most once in each of the two record sets — preserved by CreateExchange,
RequestJoin, ApprovePending, DeclinePending and Generate. -/
theorem claim_C9 (db : DB) (hreach : Reachable db) :
    (db.participants.map (fun p => (p.exchangeId, p.userId))).Nodup ∧
    (db.pendingParticipants.map (fun p => (p.exchangeId, p.userId))).Nodup ∧
    ∀ exId u, ¬((∃ p ∈ db.participants, p.exchangeId = exId ∧ p.userId = u) ∧
      (∃ q ∈ db.pendingParticipants, q.exchangeId = exId ∧ q.userId = u)) := by
  have hInv := reachable_inv hreach
  refine ⟨hInv.partKeys, hInv.pendKeys, ?_⟩
  rintro exId u ⟨⟨p, hp, hpe, hpu⟩, ⟨q, hq, hqe, hqu⟩⟩
  exact hInv.disj p hp q hq ⟨hpe.trans hqe.symm, hpu.trans hqu.symm⟩

theorem claim_C9_witness :
    Reachable wdb5 ∧
    ((wdb5.participants.map (fun p => (p.exchangeId, p.userId))).Nodup ∧
    (wdb5.pendingParticipants.map (fun p => (p.exchangeId, p.userId))).Nodup ∧
    ∀ exId u, ¬((∃ p ∈ wdb5.participants, p.exchangeId = exId ∧ p.userId = u) ∧
      (∃ q ∈ wdb5.pendingParticipants, q.exchangeId = exId ∧ q.userId = u))) :=
  ⟨wdb5_reachable, claim_C9 wdb5 wdb5_reachable⟩

/-- C10: createExchange rejects a provided-but-falsy input: a `giftBudget`
of `0`, or an empty `name`, trips the `!name || !giftBudget || !createdBy`
check, and the store is left untouched (no Exchange, no Participant). -/
theorem claim_C10 (db : DB) (name : String) (gb cb newId : ℕ) :
    (gb = 0 → createExchange db name gb cb newId = (.missingFields, db)) ∧
    (name = "" → createExchange db name gb cb newId = (.missingFields, db)) := by
  constructor
  · intro h
    rw [createExchange, if_pos (Or.inr (Or.inl h))]
  · intro h
    rw [createExchange, if_pos (Or.inl h)]

theorem claim_C10_witness :
    createExchange DB.empty "Party" 0 7 1 = (.missingFields, DB.empty) ∧
    createExchange DB.empty "" 25 7 1 = (.missingFields, DB.empty) :=
  ⟨(claim_C10 DB.empty "Party" 0 7 1).1 rfl,
    (claim_C10 DB.empty "" 25 7 1).2 rfl⟩

/-- C3, counterexample: a reachable store with `assignmentsGenerated = true`
and a pending request, on which ApprovePending succeeds and changes both the
participant and the pending sets — the handler has no `ExchangeClosed`
guard, contradicting the claim that it fails and leaves both sets
unchanged. -/
theorem claim_C3_counterexample :
    Reachable wdb7 ∧
    getExchangeById wdb7 1 = some ⟨1, "x", 5, 7, true⟩ ∧
    getPendingParticipant wdb7 1 10 = some ⟨1, 10, 102⟩ ∧
    (approveParticipant wdb7 1 10).1 = ApproveRes.ok ∧
    (approveParticipant wdb7 1 10).2.participants ≠ wdb7.participants ∧
    (approveParticipant wdb7 1 10).2.pendingParticipants ≠
      wdb7.pendingParticipants :=
  ⟨wdb7_reachable, rfl, rfl, rfl, by decide, by decide⟩

/-- C3, amended: ApprovePending performs no check of `assignmentsGenerated`:
whenever the exchange exists — even with `assignmentsGenerated = true` — and
a pending request for `userId` exists, it succeeds, deleting the pending
request and appending the Participant record. -/
theorem claim_C3 (db : DB) (exId u : ℕ) (ex : Exchange)
    (q : PendingParticipant) (hu : u ≠ 0)
    (hfind : getExchangeById db exId = some ex)
    (_hflag : ex.assignmentsGenerated = true)
    (hpend : getPendingParticipant db exId u = some q) :
    approveParticipant db exId u =
      (.ok, { db with
        participants := db.participants ++ [⟨exId, u⟩],
        pendingParticipants := db.pendingParticipants.eraseP (fun p => p.exchangeId == exId && p.userId == u) }) := by
  rw [approveParticipant, if_neg hu, hfind]
  dsimp only
  rw [hpend]
  rfl

theorem claim_C3_witness :
    (10 ≠ 0 ∧ getExchangeById wdb7 1 = some ⟨1, "x", 5, 7, true⟩ ∧
      (⟨1, "x", 5, 7, true⟩ : Exchange).assignmentsGenerated = true ∧
      getPendingParticipant wdb7 1 10 = some ⟨1, 10, 102⟩) ∧
    approveParticipant wdb7 1 10 =
      (.ok, { wdb7 with
        participants := wdb7.participants ++ [⟨1, 10⟩],
        pendingParticipants := wdb7.pendingParticipants.eraseP (fun p => p.exchangeId == 1 && p.userId == 10) }) :=
  ⟨⟨by decide, rfl, rfl, rfl⟩,
    claim_C3 wdb7 1 10 ⟨1, "x", 5, 7, true⟩ ⟨1, 10, 102⟩ (by decide) rfl rfl rfl⟩

/-- C5, counterexample: on the one-element list the repair pass swaps the
fixed point with itself (`(0 + 1) % 1 = 0`) and the fixed point survives, so
the claim's universal statement over every duplicate-free list fails. -/
theorem claim_C5_counterexample :
    ([5] : List ℕ).Nodup ∧ List.Perm ([5] : List ℕ) [5] ∧
    fixPass ([5] : List ℕ) [5] = [5] ∧
    (fixPass ([5] : List ℕ) [5]).get? 0 = ([5] : List ℕ).get? 0 :=
  ⟨by decide, List.Perm.refl _, by decide, by decide⟩

/-- C5, amended: for every duplicate-free list `P` of length **at least 2**
and every permutation `R` of `P`, one forward pass of the swap-adjacent
repair leaves no fixed point; consequently, on reachable stores the
`giverId == recipientId` check never fires and the handler never returns
the 500 `generationFailed` response. -/
theorem claim_C5 {α : Type*} [DecidableEq α] (P R : List α) (hnd : P.Nodup)
    (h2 : 2 ≤ P.length) (hperm : List.Perm R P) :
    (∀ k, k < P.length → (fixPass P R).get? k ≠ P.get? k) ∧
    (∀ (db : DB) (exId : ℕ) (jf : ℕ → ℕ), (∀ i, 1 ≤ i → jf i < i) →
      Reachable db → (generateAssignments jf db exId).1 ≠ .generationFailed) := by
  refine ⟨fixPass_no_fixed_point P R hnd h2 hperm, ?_⟩
  intro db exId jf hjf hreach
  have hnd2 := exchangeUserIds_nodup db exId (reachable_inv hreach).partKeys
  rcases generateAssignments_cases jf hjf db exId hnd2 with
    ⟨-, heq⟩ | ⟨ex, -, -, heq⟩ | ⟨ex, -, -, -, heq⟩ | ⟨ex, -, -, -, heq⟩ <;>
    simp [heq]

theorem claim_C5_witness :
    (([1, 2, 3] : List ℕ).Nodup ∧ 2 ≤ ([1, 2, 3] : List ℕ).length ∧
      List.Perm ([2, 1, 3] : List ℕ) [1, 2, 3]) ∧
    ((∀ k, k < ([1, 2, 3] : List ℕ).length →
      (fixPass [1, 2, 3] ([2, 1, 3] : List ℕ)).get? k ≠
        ([1, 2, 3] : List ℕ).get? k) ∧
    (∀ (db : DB) (exId : ℕ) (jf : ℕ → ℕ), (∀ i, 1 ≤ i → jf i < i) →
      Reachable db → (generateAssignments jf db exId).1 ≠ .generationFailed)) :=
  ⟨⟨by decide, by decide, by decide⟩,
    claim_C5 [1, 2, 3] [2, 1, 3] (by decide) (by decide) (by decide)⟩

/-- C2: generation is one-shot.  On a reachable store, (a) if the exchange's
`assignmentsGenerated` flag is already `true`, the handler answers
`alreadyGenerated` (HTTP 409) and leaves the store untouched — in
particular it creates no Assignment records — and (b) after a successful
generation, which sets the flag, an immediately repeated call fails with
`alreadyGenerated` and changes nothing. -/
theorem claim_C2 (db : DB) (exId : ℕ) (hreach : Reachable db) :
    (∀ (jf : ℕ → ℕ) (ex : Exchange), getExchangeById db exId = some ex →
      ex.assignmentsGenerated = true →
      generateAssignments jf db exId = (.alreadyGenerated, db)) ∧
    (∀ (jf jf2 : ℕ → ℕ), (∀ i, 1 ≤ i → jf i < i) → ∀ db1,
      generateAssignments jf db exId = (.generated, db1) →
      generateAssignments jf2 db1 exId = (.alreadyGenerated, db1)) := by
  constructor
  · intro jf ex hfind hflag
    exact generate_already db exId jf hreach ex hfind hflag
  · intro jf jf2 hjf db1 hsucc
    have hreach1 : Reachable db1 := by
      have := Reachable.step hreach (Step.gen db exId jf hjf)
      rwa [hsucc] at this
    have hnd := exchangeUserIds_nodup db exId (reachable_inv hreach).partKeys
    rcases generateAssignments_cases jf hjf db exId hnd with
      ⟨-, heq⟩ | ⟨ex, -, -, heq⟩ | ⟨ex, -, -, -, heq⟩ | ⟨ex, hfind, -, -, heq⟩
    · rw [heq] at hsucc; simp at hsucc
    · rw [heq] at hsucc; simp at hsucc
    · rw [heq] at hsucc; simp at hsucc
    · rw [heq] at hsucc
      have hdb1 : db1 = { db with
          assignments := db.assignments ++ genRecords jf db exId,
          exchanges := updateAssignmentsGenerated db.exchanges exId true } := by
        have := congrArg Prod.snd hsucc
        exact this.symm
      have hfind1 : getExchangeById db1 exId =
          some { ex with assignmentsGenerated := true } := by
        rw [hdb1]
        exact find_updateAssignmentsGenerated hfind
      exact generate_already db1 exId jf2 hreach1 _ hfind1 rfl

theorem claim_C2_witness :
    Reachable wdb5 ∧
    generateAssignments wjf wdb5 1 = (.generated, wdb6) ∧
    generateAssignments wjf wdb6 1 = (.alreadyGenerated, wdb6) :=
  ⟨wdb5_reachable, rfl,
    (claim_C2 wdb5 1 wdb5_reachable).2 wjf wjf wjf_valid wdb6 rfl⟩

/-- C6: on any store, (a) a found exchange with fewer than three approved
participants makes Generate fail `insufficientParticipants` with the store
untouched (no Assignment records, flag not set); (b) with exactly three
pairwise-distinct participants and the flag still unset, Generate succeeds
and the produced records form a derangement of the three. -/
theorem claim_C6 (db : DB) (exId : ℕ) (ex : Exchange)
    (hfind : getExchangeById db exId = some ex) :
    ((exchangeUserIds db exId).length < 3 → ∀ jf,
      generateAssignments jf db exId = (.insufficientParticipants, db)) ∧
    ((exchangeUserIds db exId).length = 3 → (exchangeUserIds db exId).Nodup →
      ex.assignmentsGenerated = false →
      ∀ jf, (∀ i, 1 ≤ i → jf i < i) →
      ∃ db1, generateAssignments jf db exId = (.generated, db1) ∧
        db1.assignments = db.assignments ++ genRecords jf db exId ∧
        (genRecords jf db exId).map (fun a => a.giverId) =
          exchangeUserIds db exId ∧
        List.Perm ((genRecords jf db exId).map (fun a => a.recipientId))
          (exchangeUserIds db exId) ∧
        ∀ a ∈ genRecords jf db exId,
          a.exchangeId = exId ∧ a.giverId ≠ a.recipientId) := by
  constructor
  · intro hlt jf
    rw [generateAssignments, hfind]
    dsimp only
    rw [if_pos hlt]
  · intro hlen hnd hflag jf hjf
    rcases generateAssignments_cases jf hjf db exId hnd with
      ⟨hnone, -⟩ | ⟨ex2, -, hlt, -⟩ | ⟨ex2, hfind2, -, hflag2, -⟩ |
      ⟨ex2, hfind2, -, -, heq⟩
    · rw [hnone] at hfind; cases hfind
    · omega
    · rw [hfind2] at hfind
      cases hfind
      rw [hflag] at hflag2
      cases hflag2
    · obtain ⟨hgiv, hrec, hprs, -⟩ :=
        genRecords_props jf hjf db exId hnd (by omega)
      exact ⟨_, heq, rfl, hgiv, hrec, hprs⟩

theorem claim_C6_witness :
    getExchangeById wdb5 1 = some ⟨1, "x", 5, 7, false⟩ ∧
    (exchangeUserIds wdb5 1).length = 3 ∧ (exchangeUserIds wdb5 1).Nodup ∧
    (((exchangeUserIds wdb5 1).length < 3 → ∀ jf,
      generateAssignments jf wdb5 1 = (.insufficientParticipants, wdb5)) ∧
    ((exchangeUserIds wdb5 1).length = 3 → (exchangeUserIds wdb5 1).Nodup →
      (⟨1, "x", 5, 7, false⟩ : Exchange).assignmentsGenerated = false →
      ∀ jf, (∀ i, 1 ≤ i → jf i < i) →
      ∃ db1, generateAssignments jf wdb5 1 = (.generated, db1) ∧
        db1.assignments = wdb5.assignments ++ genRecords jf wdb5 1 ∧
        (genRecords jf wdb5 1).map (fun a => a.giverId) =
          exchangeUserIds wdb5 1 ∧
        List.Perm ((genRecords jf wdb5 1).map (fun a => a.recipientId))
          (exchangeUserIds wdb5 1) ∧
        ∀ a ∈ genRecords jf wdb5 1,
          a.exchangeId = 1 ∧ a.giverId ≠ a.recipientId)) :=
  ⟨rfl, by decide, by decide, claim_C6 wdb5 1 ⟨1, "x", 5, 7, false⟩ rfl⟩

/-- C7: Generate is all-or-nothing on reachable stores.  Either it succeeds,
appending the full batch of one Assignment record per approved participant
and flipping `assignmentsGenerated` to `true`, or it fails and the store is
returned exactly as it was — in particular a failing call never persists a
strict non-empty subset of the records (the bail-out inside the persistence
loop is unreachable because the repaired recipient list is a derangement). -/
theorem claim_C7 (db : DB) (exId : ℕ) (jf : ℕ → ℕ)
    (hjf : ∀ i, 1 ≤ i → jf i < i) (hreach : Reachable db) :
    ((generateAssignments jf db exId).1 = .generated ∧
      (generateAssignments jf db exId).2.assignments =
        db.assignments ++ genRecords jf db exId ∧
      (genRecords jf db exId).length = (exchangeUserIds db exId).length ∧
      (∃ ex1, getExchangeById (generateAssignments jf db exId).2 exId =
        some ex1 ∧ ex1.assignmentsGenerated = true)) ∨
    ((generateAssignments jf db exId).1 ≠ .generated ∧
      (generateAssignments jf db exId).2 = db) := by
  have hnd := exchangeUserIds_nodup db exId (reachable_inv hreach).partKeys
  rcases generateAssignments_cases jf hjf db exId hnd with
    ⟨-, heq⟩ | ⟨ex, -, -, heq⟩ | ⟨ex, -, -, -, heq⟩ | ⟨ex, hfind, h3, -, heq⟩
  · right; rw [heq]; exact ⟨by simp, rfl⟩
  · right; rw [heq]; exact ⟨by simp, rfl⟩
  · right; rw [heq]; exact ⟨by simp, rfl⟩
  · left
    rw [heq]
    obtain ⟨-, -, -, hlen⟩ := genRecords_props jf hjf db exId hnd h3
    exact ⟨rfl, rfl, hlen,
      ⟨{ ex with assignmentsGenerated := true },
        find_updateAssignmentsGenerated hfind, rfl⟩⟩

theorem claim_C7_witness :
    (∀ i, 1 ≤ i → wjf i < i) ∧ Reachable wdb5 ∧
    (((generateAssignments wjf wdb5 1).1 = .generated ∧
      (generateAssignments wjf wdb5 1).2.assignments =
        wdb5.assignments ++ genRecords wjf wdb5 1 ∧
      (genRecords wjf wdb5 1).length = (exchangeUserIds wdb5 1).length ∧
      (∃ ex1, getExchangeById (generateAssignments wjf wdb5 1).2 1 =
        some ex1 ∧ ex1.assignmentsGenerated = true)) ∨
    ((generateAssignments wjf wdb5 1).1 ≠ .generated ∧
      (generateAssignments wjf wdb5 1).2 = wdb5)) :=
  ⟨wjf_valid, wdb5_reachable, claim_C7 wdb5 1 wjf wjf_valid wdb5_reachable⟩

/-- C1: a successful Generate on a reachable store appends exactly one
Assignment record per approved participant: the records for the exchange
are precisely the appended batch, the giver list is exactly the
approved-participant list, the recipient list is a permutation of it (so
each participant occurs exactly once as giver and once as recipient), and
no record pairs a giver with themselves. -/
theorem claim_C1 (db db1 : DB) (exId : ℕ) (jf : ℕ → ℕ)
    (hjf : ∀ i, 1 ≤ i → jf i < i) (hreach : Reachable db)
    (hgen : generateAssignments jf db exId = (.generated, db1)) :
    3 ≤ (exchangeUserIds db exId).length ∧
    (exchangeUserIds db exId).Nodup ∧
    db1.assignments = db.assignments ++ genRecords jf db exId ∧
    db1.assignments.filter (fun a => a.exchangeId == exId) =
      genRecords jf db exId ∧
    (genRecords jf db exId).length = (exchangeUserIds db exId).length ∧
    (genRecords jf db exId).map (fun a => a.giverId) = exchangeUserIds db exId ∧
    List.Perm ((genRecords jf db exId).map (fun a => a.recipientId))
      (exchangeUserIds db exId) ∧
    (∀ a ∈ genRecords jf db exId,
      a.exchangeId = exId ∧ a.giverId ≠ a.recipientId) ∧
    (∀ uid ∈ exchangeUserIds db exId,
      ((genRecords jf db exId).map (fun a => a.giverId)).count uid = 1 ∧
      ((genRecords jf db exId).map (fun a => a.recipientId)).count uid = 1) := by
  have hInv := reachable_inv hreach
  have hnd := exchangeUserIds_nodup db exId hInv.partKeys
  rcases generateAssignments_cases jf hjf db exId hnd with
    ⟨-, heq⟩ | ⟨ex, -, -, heq⟩ | ⟨ex, -, -, -, heq⟩ |
    ⟨ex, hfind, h3, hflag, heq⟩
  · rw [heq] at hgen; simp at hgen
  · rw [heq] at hgen; simp at hgen
  · rw [heq] at hgen; simp at hgen
  · rw [heq] at hgen
    have hdb1 : db1 = { db with
        assignments := db.assignments ++ genRecords jf db exId,
        exchanges := updateAssignmentsGenerated db.exchanges exId true } :=
      (congrArg Prod.snd hgen).symm
    obtain ⟨hgiv, hrec, hprs, hlen⟩ := genRecords_props jf hjf db exId hnd h3
    obtain ⟨hexmem, hexid⟩ := getExchangeById_some hfind
    have hold : db.assignments.filter (fun a => a.exchangeId == exId) = [] := by
      rw [List.filter_eq_nil_iff]
      intro a ha
      have := hInv.noEarlyAssign ex hexmem hflag a ha
      rw [hexid] at this
      simpa using this
    have hnew : (genRecords jf db exId).filter
        (fun a => a.exchangeId == exId) = genRecords jf db exId := by
      rw [List.filter_eq_self]
      intro a ha
      simpa using (hprs a ha).1
    refine ⟨h3, hnd, by rw [hdb1], ?_, hlen, hgiv, hrec, hprs, ?_⟩
    · rw [hdb1]
      show (db.assignments ++ genRecords jf db exId).filter
        (fun a => a.exchangeId == exId) = genRecords jf db exId
      rw [List.filter_append, hold, hnew, List.nil_append]
    · intro uid huid
      constructor
      · rw [hgiv]
        exact List.count_eq_one_of_mem hnd huid
      · rw [hrec.count_eq uid]
        exact List.count_eq_one_of_mem hnd huid

theorem claim_C1_witness :
    (∀ i, 1 ≤ i → wjf i < i) ∧ Reachable wdb5 ∧
    generateAssignments wjf wdb5 1 = (.generated, wdb6) ∧
    (3 ≤ (exchangeUserIds wdb5 1).length ∧
    (exchangeUserIds wdb5 1).Nodup ∧
    wdb6.assignments = wdb5.assignments ++ genRecords wjf wdb5 1 ∧
    wdb6.assignments.filter (fun a => a.exchangeId == 1) =
      genRecords wjf wdb5 1 ∧
    (genRecords wjf wdb5 1).length = (exchangeUserIds wdb5 1).length ∧
    (genRecords wjf wdb5 1).map (fun a => a.giverId) = exchangeUserIds wdb5 1 ∧
    List.Perm ((genRecords wjf wdb5 1).map (fun a => a.recipientId))
      (exchangeUserIds wdb5 1) ∧
    (∀ a ∈ genRecords wjf wdb5 1,
      a.exchangeId = 1 ∧ a.giverId ≠ a.recipientId) ∧
    (∀ uid ∈ exchangeUserIds wdb5 1,
      ((genRecords wjf wdb5 1).map (fun a => a.giverId)).count uid = 1 ∧
      ((genRecords wjf wdb5 1).map (fun a => a.recipientId)).count uid = 1)) :=
  ⟨wjf_valid, wdb5_reachable, rfl,
    claim_C1 wdb5 wdb6 1 wjf wjf_valid wdb5_reachable rfl⟩

/-- C4: the shuffle that, for `i` from `n-1` down to `1`, swaps position `i`
with a chosen position `j < i` (Sattolo's algorithm) permutes the list, and
the realised index permutation is one single cycle moving exactly the
positions `0 … n-1`; consequently the output differs from the input at
every position. -/
theorem claim_C4 {α : Type*} [DecidableEq α] (P : List α) (hnd : P.Nodup)
    (h2 : 2 ≤ P.length) (jf : ℕ → ℕ)
    (hjf : ∀ i, 1 ≤ i → i ≤ P.length - 1 → jf i < i) :
    List.Perm (sattolo jf P) P ∧
    (satPerm jf (P.length - 1)).IsCycle ∧
    (∀ k, satPerm jf (P.length - 1) k ≠ k ↔ k < P.length) ∧
    (∀ k, (sattolo jf P).get? k = P.get? (satPerm jf (P.length - 1) k)) ∧
    (∀ i, i < P.length → (sattolo jf P).get? i ≠ P.get? i) := by
  set jf2 : ℕ → ℕ := fun i => if i ≤ P.length - 1 then jf i else 0 with hjf2
  have hagree : ∀ i, 1 ≤ i → i ≤ P.length - 1 → jf2 i = jf i := by
    intro i h1 h2
    rw [hjf2]
    simp only
    rw [if_pos h2]
  have hvalid : ∀ i, 1 ≤ i → jf2 i < i := by
    intro i h1
    rw [hjf2]
    simp only
    split
    · exact hjf i h1 (by assumption)
    · omega
  have hsame : sattolo jf P = sattolo jf2 P :=
    sattoloAux_congr _ P (fun i h1 h2 => (hagree i h1 h2).symm)
  have hsameP : satPerm jf (P.length - 1) = satPerm jf2 (P.length - 1) :=
    satPerm_congr _ (fun i h1 h2 => (hagree i h1 h2).symm)
  rw [hsame, hsameP]
  obtain ⟨hperm, hget, hnofix⟩ := sattolo_props P hnd h2 jf2 hvalid
  obtain ⟨hcyc, hmoved⟩ :=
    satPerm_isCycle_and_moved jf2 hvalid (P.length - 1) (by omega)
  refine ⟨hperm, hcyc, ?_, hget, hnofix⟩
  intro k
  rw [hmoved k]
  omega

theorem claim_C4_witness :
    (([10, 20, 30] : List ℕ).Nodup ∧ 2 ≤ ([10, 20, 30] : List ℕ).length) ∧
    (List.Perm (sattolo wjf [10, 20, 30]) ([10, 20, 30] : List ℕ) ∧
    (satPerm wjf (([10, 20, 30] : List ℕ).length - 1)).IsCycle ∧
    (∀ k, satPerm wjf (([10, 20, 30] : List ℕ).length - 1) k ≠ k ↔
      k < ([10, 20, 30] : List ℕ).length) ∧
    (∀ k, (sattolo wjf [10, 20, 30]).get? k =
      ([10, 20, 30] : List ℕ).get? (satPerm wjf (([10, 20, 30] : List ℕ).length - 1) k)) ∧
    (∀ i, i < ([10, 20, 30] : List ℕ).length →
      (sattolo wjf [10, 20, 30]).get? i ≠ ([10, 20, 30] : List ℕ).get? i)) :=
  ⟨⟨by decide, by decide⟩,
    claim_C4 [10, 20, 30] (by decide) (by decide) wjf
      (fun i h1 _ => wjf_valid i h1)⟩

/-- C8: request-join on an existing exchange: rejects a user already in the
participant set (the creator is inserted there at creation), rejects a user
with a pending request, and otherwise appends exactly one PendingRequest
carrying the `requestedAt` timestamp, touching nothing else. -/
theorem claim_C8 (db : DB) (exId u now : ℕ) (ex : Exchange) (hu : u ≠ 0)
    (hfind : getExchangeById db exId = some ex) :
    ((∃ p ∈ db.participants, p.exchangeId = exId ∧ p.userId = u) →
      requestJoin db exId u now = (.alreadyParticipant, db)) ∧
    ((¬∃ p ∈ db.participants, p.exchangeId = exId ∧ p.userId = u) →
      (∃ q ∈ db.pendingParticipants, q.exchangeId = exId ∧ q.userId = u) →
      requestJoin db exId u now = (.alreadyPending, db)) ∧
    ((¬∃ p ∈ db.participants, p.exchangeId = exId ∧ p.userId = u) →
      (¬∃ q ∈ db.pendingParticipants, q.exchangeId = exId ∧ q.userId = u) →
      requestJoin db exId u now =
        (.ok, { db with pendingParticipants :=
          db.pendingParticipants ++ [⟨exId, u, now⟩] })) := by
  refine ⟨?_, ?_, ?_⟩
  · intro hpart
    rw [requestJoin, if_neg hu, hfind]
    dsimp only
    rw [if_pos (getParticipant_isSome.mpr hpart)]
  · intro hnopart hpend
    rw [requestJoin, if_neg hu, hfind]
    dsimp only
    rw [if_neg (fun hc => hnopart (getParticipant_isSome.mp hc)),
      if_pos (getPendingParticipant_isSome.mpr hpend)]
  · intro hnopart hnopend
    rw [requestJoin, if_neg hu, hfind]
    dsimp only
    rw [if_neg (fun hc => hnopart (getParticipant_isSome.mp hc)),
      if_neg (fun hc => hnopend (getPendingParticipant_isSome.mp hc))]
    rfl

theorem claim_C8_witness :
    (7 ≠ 0 ∧ getExchangeById wdb5 1 = some ⟨1, "x", 5, 7, false⟩) ∧
    (((∃ p ∈ wdb5.participants, p.exchangeId = 1 ∧ p.userId = 7) →
      requestJoin wdb5 1 7 200 = (.alreadyParticipant, wdb5)) ∧
    ((¬∃ p ∈ wdb5.participants, p.exchangeId = 1 ∧ p.userId = 7) →
      (∃ q ∈ wdb5.pendingParticipants, q.exchangeId = 1 ∧ q.userId = 7) →
      requestJoin wdb5 1 7 200 = (.alreadyPending, wdb5)) ∧
    ((¬∃ p ∈ wdb5.participants, p.exchangeId = 1 ∧ p.userId = 7) →
      (¬∃ q ∈ wdb5.pendingParticipants, q.exchangeId = 1 ∧ q.userId = 7) →
      requestJoin wdb5 1 7 200 =
        (.ok, { wdb5 with pendingParticipants :=
          wdb5.pendingParticipants ++ [⟨1, 7, 200⟩] }))) :=
  ⟨⟨by decide, rfl⟩, claim_C8 wdb5 1 7 200 ⟨1, "x", 5, 7, false⟩ (by decide) rfl⟩

end SecretSanta
